import Mathlib

/-!
Verification development for the `cidr-calculator-github` repository.

The Go sources are shallowly embedded below:
* `main.go` — `evaluateInput`, `evaluateAddr`, `evaluateCIDR`, `lastAddrInPrefix`
  (here `lastAddrInPfx`; the word is shortened, the code is the same),
  `defaultThreshold`;
* `internal/githubmeta` — `Entry`, `MetaData`, `MetaData.Lookup`,
  `parseMetaJSON`, `extractStringSlice`, and the `fetch` control flow with its
  `cacheStore` (load/save), modelled over explicit response/cache values.

Machine integers are `Nat` (addresses of the 4-byte family live below `2 ^ 32`,
of the 16-byte family below `2 ^ 128`); Go's byte arrays `As4`/`As16` are
big-endian byte lists obtained by `toBytes`.  The Go standard library
(`netip.ParseAddr`, `netip.ParsePrefix`, `Prefix.String`, JSON decoding, HTTP)
is treated as an external oracle: parsers and renderers are explicit function
parameters, HTTP responses and the on-disk cache are explicit values.
-/

namespace CidrCalc

/-- `netip.Addr`: an address family flag (`is6 = true` for the 16-byte family)
together with the numeric value of the address read as a big-endian number.
A well-formed value fits its family's bit width (`Addr.Wf`). -/
structure Addr where
  is6 : Bool
  val : Nat
deriving DecidableEq

/-- Total number of address bits of a family: 128 for the 16-byte family,
32 for the 4-byte family. -/
def famBits (is6 : Bool) : Nat := if is6 then 128 else 32

/-- Number of bytes of a family (`As16` vs `As4`). -/
def famBytes (is6 : Bool) : Nat := if is6 then 16 else 4

/-- Well-formedness of an address: its value fits the family width. -/
def Addr.Wf (a : Addr) : Prop := a.val < 2 ^ famBits a.is6

instance (a : Addr) : Decidable a.Wf := by unfold Addr.Wf; infer_instance

/-- `netip.Prefix`: an address plus a prefix bit length.  `netip.ParsePrefix`
does NOT zero the host bits of the given address, so `addr` is kept verbatim
(Go: "masked address bits are not zeroed"). -/
structure Pfx where
  addr : Addr
  bits : Nat
deriving DecidableEq

/-- Well-formedness of a parsed `netip.Prefix`: valid address, prefix length
at most the family width (guaranteed by `netip.ParsePrefix`). -/
def Pfx.Wf (p : Pfx) : Prop := p.addr.Wf ∧ p.bits ≤ famBits p.addr.is6

instance (p : Pfx) : Decidable p.Wf := by unfold Pfx.Wf; infer_instance

/-- `netip.Prefix.Contains`: the address is of the same family and agrees with
the prefix's address on the first `bits` bits (Go compares the two addresses
under the network mask; numerically that is equality of the values shifted
right by the number of host bits). -/
def Pfx.containsB (p : Pfx) (a : Addr) : Bool :=
  a.is6 == p.addr.is6 &&
    a.val >>> (famBits a.is6 - p.bits) == p.addr.val >>> (famBits a.is6 - p.bits)

/-- Big-endian byte decomposition of a numeric address value
(`Addr.As4` / `Addr.As16` with `w` = number of bytes). -/
def toBytes : Nat → Nat → List Nat
  | 0, _ => []
  | w + 1, v => toBytes w (v / 256) ++ [v % 256]

/-- Recomposition of a big-endian byte list into a numeric value
(`netip.AddrFrom4` / `netip.AddrFrom16`). -/
def fromBytes (bs : List Nat) : Nat := bs.foldl (fun acc b => acc * 256 + b) 0

/-- The per-byte loop body of `lastAddrInPrefix` (main.go): for the byte at
index `i` (so covering source bit positions `i*8 .. i*8+7`), keep it when it is
all network bits, set it to `0xff` when it is all host bits, and OR in the low
`byteEnd - bits` bits when the byte is split between network and host bits. -/
def setHostBits (bits : Nat) : Nat → List Nat → List Nat
  | _, [] => []
  | i, b :: rest =>
      let byteStart := i * 8
      let byteEnd := byteStart + 8
      let b' :=
        if byteEnd ≤ bits then b
        else if bits ≤ byteStart then 255
        else b ||| (2 ^ (byteEnd - bits) - 1)
      b' :: setHostBits bits (i + 1) rest

/-- `lastAddrInPrefix` (main.go): decompose the prefix's address into its
family's bytes, set every host bit to 1 byte by byte, recompose. -/
def lastAddrInPfx (p : Pfx) : Addr :=
  { is6 := p.addr.is6
    val := fromBytes (setHostBits p.bits 0 (toBytes (famBytes p.addr.is6) p.addr.val)) }

/-- Strict comparison of character lists by code point.  Go's `<` on strings
compares UTF-8 bytes, and UTF-8 preserves code-point order, so this is the
order `sort.Strings` uses. -/
def charsLt : List Char → List Char → Bool
  | _, [] => false
  | [], _ :: _ => true
  | a :: as, b :: bs =>
    if a.val.toNat < b.val.toNat then true
    else if b.val.toNat < a.val.toNat then false
    else charsLt as bs

/-- Go's `<` on strings. -/
def strLt (s t : String) : Bool := charsLt s.data t.data

/-- Go's `<=` on strings (`s <= t` iff not `t < s`). -/
def strLe (s t : String) : Bool := !(strLt t s)

/-- `sort.Strings`: ascending lexicographic sort. -/
def sortStrings (l : List String) : List String :=
  List.insertionSort (fun x y : String => strLe x y = true) l

/-- `githubmeta.Entry`: one labelled CIDR block (`pfx` is the Go field
`Prefix`). -/
structure Entry where
  label : String
  pfx : Pfx
deriving DecidableEq

/-- `githubmeta.MetaData.entries`. -/
abbrev MetaData := List Entry

/-- The loop body of `MetaData.Lookup`: append a matching entry's label unless
it was already collected (the Go `seen` map holds exactly the labels already
in the accumulator). -/
def lookupStep (a : Addr) (labels : List String) (e : Entry) : List String :=
  if e.pfx.containsB a && !(labels.contains e.label) then labels ++ [e.label]
  else labels

/-- The accumulation loop of `MetaData.Lookup` over all entries. -/
def lookupFold (entries : List Entry) (a : Addr) : List String :=
  entries.foldl (lookupStep a) []

/-- `MetaData.Lookup`: `none` models a nil `*MetaData` receiver / an invalid
(`!addr.IsValid()`) address; both return nil.  Otherwise collect the labels of
the entries containing the address, deduplicated, and sort them. -/
def Lookup (m : Option MetaData) (a : Option Addr) : List String :=
  match m, a with
  | some entries, some addr => sortStrings (lookupFold entries addr)
  | _, _ => []

/-- `defaultThreshold` (main.go). -/
def defaultThreshold : Nat := 4096

/-- Number of address bits used by `evaluateCIDR` (32, or 128 when
`prefix.Addr().Is6()`). -/
def addrBitsOf (p : Pfx) : Nat := if p.addr.is6 then 128 else 32

/-- `hostBits := addrBits - bits` of `evaluateCIDR`. -/
def hostBitsOf (p : Pfx) : Nat := addrBitsOf p - p.bits

/-- The `count` computed by `evaluateCIDR`: `defaultThreshold + 1` as an
overflow sentinel when `hostBits >= 64` (the shift would overflow `uint64`),
otherwise `1 << hostBits` (exact, since `hostBits ≤ 63` fits `uint64`). -/
def countOf (p : Pfx) : Nat :=
  if 64 ≤ hostBitsOf p then defaultThreshold + 1 else 2 ^ hostBitsOf p

/-- The enumeration loop of `evaluateCIDR`: visit the current value, stop when
it equals `last`, otherwise continue from `addr.Next()` (numeric successor).
The loop only terminates when it starts at or below `last`, so it is embedded
with the exact number of remaining steps as structural fuel. -/
def walkFuel : Nat → Nat → Nat → List Nat
  | 0, _, a => [a]
  | fuel + 1, last, a => if a = last then [a] else a :: walkFuel fuel last (a + 1)

/-- The Go loop with its fuel instantiated: for `a ≤ last` this is exactly the
addresses the loop visits. -/
def walk (last : Nat) (a : Nat) : List Nat := walkFuel (last - a) last a

/-- The addresses visited by `evaluateCIDR`'s loop: from `prefix.Addr()` as
given up to `lastAddrInPrefix prefix`. -/
def enumAddrs (p : Pfx) : List Nat := walk (lastAddrInPfx p).val p.addr.val

/-- The Membership Engine results of the enumeration: one `meta.Lookup` call
per visited address (`Next` preserves the family). -/
def lookupsOf (m : MetaData) (p : Pfx) : List (List String) :=
  (enumAddrs p).map (fun v => Lookup (some m) (some { is6 := p.addr.is6, val := v }))

/-- The label-set signature of `evaluateCIDR`: `sort.Strings(labels)` then
`strings.Join(labels, ",")`. -/
def sigOf (labels : List String) : String :=
  String.intercalate "," (sortStrings labels)

/-- The signatures of the owned (non-empty label set) addresses, in
enumeration order. -/
def ownedSigs (m : MetaData) (p : Pfx) : List String :=
  ((lookupsOf m p).filter (fun l => !l.isEmpty)).map sigOf

/-- The reported `labelSets` distribution: the Go map `signature -> count`
rendered with its keys sorted (`sort.Strings(sigs)` before printing). -/
def sigCounts (sigs : List String) : List (String × Nat) :=
  (sortStrings sigs.dedup).map (fun s => (s, sigs.count s))

/-- Outcome of `evaluateCIDR`: either the range-too-large report (with the
computed count and the threshold), or the evaluation report (owned count,
not-owned count, label distribution). -/
inductive CIDRResult where
  | tooLarge (count threshold : Nat)
  | evaluated (owned notOwned : Nat) (dist : List (String × Nat))
deriving DecidableEq

/-- `evaluateCIDR` (main.go): compute the count with the overflow sentinel;
if it exceeds the threshold report `tooLarge` without enumerating; otherwise
walk the range, classify every address with one `Lookup` call, and aggregate
(one pass in Go; here expressed as counts over the list of per-address
lookup results). -/
def evaluateCIDR (m : MetaData) (p : Pfx) : CIDRResult :=
  let count := countOf p
  if defaultThreshold < count then .tooLarge count defaultThreshold
  else
    .evaluated
      ((lookupsOf m p).countP (fun l => !l.isEmpty))
      ((lookupsOf m p).countP (fun l => l.isEmpty))
      (sigCounts (ownedSigs m p))

/-- Outcome of `evaluateInput`: the single-address report (the label list of
`evaluateAddr`, empty meaning "not owned"), the CIDR report, or the
invalid-input report carrying the parse error text. -/
inductive InputResult where
  | addrReport (labels : List String)
  | cidrReport (r : CIDRResult)
  | invalid (reason : String)
deriving DecidableEq

/-- `evaluateInput` (main.go), with the standard-library parsers as explicit
parameters: try `netip.ParseAddr` first; on success classify the single
address (`evaluateAddr` reduces to one `Lookup`).  Otherwise try
`netip.ParsePrefix`; on success evaluate the CIDR; otherwise report the
prefix-parse error. -/
def evaluateInput (parseAddr : String → Except String Addr)
    (parsePfx : String → Except String Pfx)
    (m : MetaData) (raw : String) : InputResult :=
  match parseAddr raw with
  | .ok a => .addrReport (Lookup (some m) (some a))
  | .error _ =>
    match parsePfx raw with
    | .ok p => .cidrReport (evaluateCIDR m p)
    | .error e => .invalid e

/-- A decoded JSON value (`map[string]any` after `encoding/json`), as far as
`parseMetaJSON` inspects it. -/
inductive JValue where
  | str (s : String)
  | num (n : Int)
  | bool (b : Bool)
  | null
  | arr (xs : List JValue)
  | obj (fields : List (String × JValue))

/-- The element loop of `extractStringSlice`: every element must be a string,
otherwise the whole key is rejected. -/
def extractStrings : List JValue → Option (List String)
  | [] => some []
  | .str s :: rest => (extractStrings rest).map (fun out => s :: out)
  | _ :: _ => none

/-- `extractStringSlice` (githubmeta): accept only a JSON array whose elements
are all strings. -/
def extractStringSlice : JValue → Option (List String)
  | .arr xs => extractStrings xs
  | _ => none

/-- The inner loop of `parseMetaJSON` for one label: parse each candidate
string as a CIDR block (`netip.ParsePrefix`, the `parse` parameter), dropping
the ones that fail, and tag the survivors with the label. -/
def entriesOfField (parse : String → Option Pfx) (label : String)
    (cidrs : List String) : List Entry :=
  (cidrs.filterMap parse).map (fun q => { label := label, pfx := q })

/-- The entries collected by `parseMetaJSON` before sorting: keys whose value
is not a plain string list contribute nothing (`continue`), the rest
contribute their parseable CIDR strings. -/
def rawEntries (parse : String → Option Pfx)
    (fields : List (String × JValue)) : List Entry :=
  fields.flatMap (fun lv =>
    match extractStringSlice lv.2 with
    | none => []
    | some cidrs => entriesOfField parse lv.1 cidrs)

/-- The `sort.Slice` comparator of `parseMetaJSON`, as a (total) order: by
label, ties broken by the prefix's canonical text form (`Prefix.String`, the
`render` parameter). -/
def sortEntries (render : Pfx → String) (es : List Entry) : List Entry :=
  List.insertionSort
    (fun x y =>
      (strLt x.label y.label || (x.label == y.label && strLe (render x.pfx) (render y.pfx)))
        = true) es

/-- `parseMetaJSON` (githubmeta), for an already-decoded top-level JSON
object: collect the entries; fail with the `EmptyDataset` error when none
survive, otherwise sort and return them. -/
def parseMetaJSON (parse : String → Option Pfx) (render : Pfx → String)
    (fields : List (String × JValue)) : Except String (List Entry) :=
  let entries := rawEntries parse fields
  if entries.isEmpty then .error "no CIDR entries found in meta response"
  else .ok (sortEntries render entries)

/-- What the HTTP round trip of `fetch` can produce, as far as the code
inspects it: a 200 with a decoded JSON object body and optional ETag header,
a 304, or any other status code. -/
inductive HttpResponse where
  | ok (body : List (String × JValue)) (etag : Option String)
  | notModified
  | otherStatus (code : Nat)

/-- `client.Do` either fails at the transport level or yields a response. -/
inductive FetchOutcome where
  | transportError
  | response (r : HttpResponse)

/-- The on-disk cache behind a non-nil `cacheStore`: the decoded payload of
`meta.json` if the file exists, and the `meta.etag` content if it exists. -/
structure CacheState where
  payload : Option (List (String × JValue))
  etag : Option String

/-- `cacheStore.load`: error on a nil store ("cache disabled"), error when
`meta.json` is unreadable/absent, otherwise re-parse the cached payload. -/
def cacheLoad (parse : String → Option Pfx) (render : Pfx → String) :
    Option CacheState → Except String (List Entry)
  | none => .error "cache disabled"
  | some c =>
    match c.payload with
    | none => .error "read cached meta"
    | some raw => parseMetaJSON parse render raw

/-- `cacheStore.save`: a nil store ignores the write; otherwise overwrite the
payload and, only when the new ETag is non-empty, the token (an empty ETag
leaves any previously stored token in place). -/
def cacheSave (store : Option CacheState) (raw : List (String × JValue))
    (etag : Option String) : Option CacheState :=
  match store with
  | none => none
  | some c =>
    some { payload := some raw
           etag := match etag with | some e => some e | none => c.etag }

/-- `fetch` (githubmeta), over an explicit transport outcome and cache state.
Transport error: fall back to the cache, else propagate.  304: the cache must
load, else fatal.  200: parse the body (propagating its error), save
(non-fatally; saving cannot fail in this model) and return.  Any other
status: fall back to the cache, else propagate.  The returned pair is the
entry list of the `MetaData` together with the cache state afterwards. -/
def fetch (parse : String → Option Pfx) (render : Pfx → String)
    (outcome : FetchOutcome) (store : Option CacheState) :
    Except String (List Entry × Option CacheState) :=
  match outcome with
  | .transportError =>
    match cacheLoad parse render store with
    | .ok entries => .ok (entries, store)
    | .error _ => .error "fetch github meta"
  | .response .notModified =>
    match cacheLoad parse render store with
    | .ok entries => .ok (entries, store)
    | .error e => .error ("load cached meta after 304: " ++ e)
  | .response (.ok body etag) =>
    match parseMetaJSON parse render body with
    | .error e => .error e
    | .ok entries => .ok (entries, cacheSave store body etag)
  | .response (.otherStatus code) =>
    match cacheLoad parse render store with
    | .ok entries => .ok (entries, store)
    | .error _ => .error ("unexpected status " ++ toString code ++ " from meta endpoint")

/-! ### Helper lemmas: the byte-wise string order agrees with Lean's order -/

theorem char_lt_iff (x y : Char) : x < y ↔ x.val.toNat < y.val.toNat :=
  (Char.lt_iff_val_lt_val).trans Iff.rfl

theorem char_eq_of_toNat_eq {x y : Char} (h : x.val.toNat = y.val.toNat) : x = y :=
  Char.ext (UInt32.toNat.inj h)

theorem charsLt_iff : ∀ (as bs : List Char), charsLt as bs = true ↔ as < bs
  | as, [] => by
    constructor
    · intro h; cases as <;> simp [charsLt] at h
    · intro h; cases as <;> cases h
  | [], b :: bs => by
    simp only [charsLt, true_iff]
    exact List.Lex.nil
  | a :: as, b :: bs => by
    by_cases h1 : a.val.toNat < b.val.toNat
    · simp only [charsLt, h1, if_true, true_iff]
      exact List.Lex.rel ((char_lt_iff a b).mpr h1)
    · by_cases h2 : b.val.toNat < a.val.toNat
      · simp only [charsLt, h1, h2, if_true, if_false, Bool.false_eq_true, false_iff]
        intro h
        cases h with
        | rel hab => exact h1 ((char_lt_iff a b).mp hab)
        | cons _ => exact Nat.lt_irrefl _ h2
      · have heq : a = b :=
          char_eq_of_toNat_eq (Nat.le_antisymm (Nat.le_of_not_lt h2) (Nat.le_of_not_lt h1))
        subst heq
        simp only [charsLt, h1, h2, if_false]
        rw [charsLt_iff as bs]
        constructor
        · exact fun h => List.Lex.cons h
        · intro h
          cases h with
          | rel hab => exact absurd ((char_lt_iff a a).mp hab) h1
          | cons htail => exact htail

theorem strLt_iff (s t : String) : strLt s t = true ↔ s < t := by
  rw [String.lt_iff_toList_lt]
  exact charsLt_iff s.data t.data

theorem strLe_iff (s t : String) : strLe s t = true ↔ s ≤ t := by
  rw [strLe, Bool.not_eq_true', ← Bool.not_eq_true, strLt_iff, ← not_lt]

theorem strLe_total_inst : IsTotal String (fun x y => strLe x y = true) :=
  ⟨fun a b => by rw [strLe_iff, strLe_iff]; exact le_total a b⟩

theorem strLe_trans_inst : IsTrans String (fun x y => strLe x y = true) :=
  ⟨fun a b c hab hbc => by
    rw [strLe_iff] at hab hbc ⊢
    exact le_trans hab hbc⟩

/-! ### Helper lemmas: `sortStrings` -/

theorem sortStrings_perm (l : List String) : (sortStrings l).Perm l :=
  List.perm_insertionSort _ l

theorem mem_sortStrings {s : String} {l : List String} : s ∈ sortStrings l ↔ s ∈ l :=
  (sortStrings_perm l).mem_iff

theorem sortStrings_sorted (l : List String) :
    List.Sorted (fun x y : String => x ≤ y) (sortStrings l) := by
  haveI := strLe_total_inst
  haveI := strLe_trans_inst
  exact (List.sorted_insertionSort (fun x y : String => strLe x y = true) l).imp
    (fun {x y} hxy => (strLe_iff x y).mp hxy)

theorem sortStrings_nodup {l : List String} (h : l.Nodup) : (sortStrings l).Nodup :=
  ((sortStrings_perm l).symm).nodup h

/-! ### Helper lemmas: big-endian bytes -/

theorem toBytes_length : ∀ (w v : Nat), (toBytes w v).length = w
  | 0, _ => rfl
  | w + 1, v => by simp [toBytes, toBytes_length w]

theorem toBytes_lt : ∀ (w v : Nat), ∀ b ∈ toBytes w v, b < 256
  | 0, _ => by intro b hb; cases hb
  | w + 1, v => by
    intro b hb
    simp only [toBytes, List.mem_append, List.mem_singleton] at hb
    cases hb with
    | inl h => exact toBytes_lt w (v / 256) b h
    | inr h => subst h; exact Nat.mod_lt _ (by norm_num)

theorem fromBytes_foldl : ∀ (bs : List Nat) (a : Nat),
    bs.foldl (fun acc b => acc * 256 + b) a = a * 2 ^ (8 * bs.length) + fromBytes bs
  | [], a => by simp [fromBytes]
  | b :: bs, a => by
    have h1 := fromBytes_foldl bs (a * 256 + b)
    have h2 := fromBytes_foldl bs b
    have hfb : fromBytes (b :: bs) = b * 2 ^ (8 * bs.length) + fromBytes bs := by
      show bs.foldl _ (0 * 256 + b) = _
      rw [Nat.zero_mul, Nat.zero_add, h2]
    show bs.foldl _ (a * 256 + b) = a * 2 ^ (8 * (bs.length + 1)) + fromBytes (b :: bs)
    rw [h1, hfb]
    have hp : (2 : Nat) ^ (8 * (bs.length + 1)) = 2 ^ (8 * bs.length) * 256 := by
      rw [Nat.mul_succ, pow_add]; norm_num
    rw [hp]; ring

theorem fromBytes_cons (b : Nat) (bs : List Nat) :
    fromBytes (b :: bs) = b * 2 ^ (8 * bs.length) + fromBytes bs := by
  show bs.foldl _ (0 * 256 + b) = _
  rw [Nat.zero_mul, Nat.zero_add, fromBytes_foldl bs b]

theorem fromBytes_lt : ∀ (bs : List Nat), (∀ b ∈ bs, b < 256) →
    fromBytes bs < 2 ^ (8 * bs.length)
  | [], _ => by simp [fromBytes]
  | b :: bs, h => by
    have hb : b < 256 := h b (List.mem_cons_self b bs)
    have htail := fromBytes_lt bs (fun x hx => h x (List.mem_cons_of_mem b hx))
    rw [fromBytes_cons]
    have hp : (2 : Nat) ^ (8 * (b :: bs).length) = 256 * 2 ^ (8 * bs.length) := by
      simp only [List.length_cons, Nat.mul_succ, pow_add]; ring
    rw [hp]
    calc b * 2 ^ (8 * bs.length) + fromBytes bs
        < b * 2 ^ (8 * bs.length) + 2 ^ (8 * bs.length) := by omega
      _ = (b + 1) * 2 ^ (8 * bs.length) := by ring
      _ ≤ 256 * 2 ^ (8 * bs.length) := Nat.mul_le_mul_right _ (by omega)

theorem fromBytes_toBytes : ∀ (w v : Nat), fromBytes (toBytes w v) = v % 2 ^ (8 * w)
  | 0, v => by simp [toBytes, fromBytes, Nat.mod_one]
  | w + 1, v => by
    show fromBytes (toBytes w (v / 256) ++ [v % 256]) = v % 2 ^ (8 * (w + 1))
    have happ : ∀ (bs : List Nat) (x : Nat),
        fromBytes (bs ++ [x]) = fromBytes bs * 256 + x := by
      intro bs x
      show (bs ++ [x]).foldl _ 0 = _
      rw [List.foldl_append]
      rfl
    rw [happ, fromBytes_toBytes w (v / 256)]
    have hp : (2 : Nat) ^ (8 * (w + 1)) = 256 * 2 ^ (8 * w) := by
      rw [Nat.mul_succ, pow_add]; ring
    rw [hp, Nat.mod_mul]
    ring

/-! ### Helper lemmas: `setHostBits` -/

theorem setHostBits_length (bits : Nat) : ∀ (i : Nat) (bs : List Nat),
    (setHostBits bits i bs).length = bs.length
  | _, [] => rfl
  | i, _ :: bs => by simp [setHostBits, setHostBits_length bits (i + 1) bs]

theorem setHostBits_lt (bits : Nat) : ∀ (i : Nat) (bs : List Nat),
    (∀ b ∈ bs, b < 256) → ∀ b' ∈ setHostBits bits i bs, b' < 256
  | _, [], _ => by intro b' hb'; cases hb'
  | i, b :: bs, h => by
    intro b' hb'
    have hb : b < 256 := h b (List.mem_cons_self b bs)
    simp only [setHostBits, List.mem_cons] at hb'
    cases hb' with
    | inr htail =>
      exact setHostBits_lt bits (i + 1) bs (fun x hx => h x (List.mem_cons_of_mem b hx)) b' htail
    | inl hhead =>
      subst hhead
      by_cases h1 : i * 8 + 8 ≤ bits
      · simpa [h1] using hb
      · by_cases h2 : bits ≤ i * 8
        · simp [h1, h2]
        · simp only [h1, h2, if_false]
          have hmask : (2 : Nat) ^ (i * 8 + 8 - bits) - 1 < 256 := by
            have : (2 : Nat) ^ (i * 8 + 8 - bits) ≤ 2 ^ 8 :=
              Nat.pow_le_pow_right (by norm_num) (by omega)
            omega
          have h8 : (256 : Nat) = 2 ^ 8 := by norm_num
          rw [h8]
          exact Nat.or_lt_two_pow (by omega) (by omega)

theorem setHostBits_testBit (bits : Nat) : ∀ (bs : List Nat) (i : Nat),
    (∀ b ∈ bs, b < 256) → ∀ (j : Nat),
    (fromBytes (setHostBits bits i bs)).testBit j =
      if j < 8 * bs.length then
        (if 8 * i + 8 * bs.length - 1 - j < bits then (fromBytes bs).testBit j else true)
      else false
  | [], i, _, j => by simp [setHostBits, fromBytes]
  | b :: bs, i, h, j => by
    have hb : b < 256 := h b (List.mem_cons_self b bs)
    have htail : ∀ x ∈ bs, x < 256 := fun x hx => h x (List.mem_cons_of_mem b hx)
    -- decompose the rewritten list
    set rest := setHostBits bits (i + 1) bs with hrest
    have hlen : rest.length = bs.length := setHostBits_length bits (i + 1) bs
    have hrlt : fromBytes rest < 2 ^ (8 * bs.length) := by
      have := fromBytes_lt rest (setHostBits_lt bits (i + 1) bs htail)
      rwa [hlen] at this
    have hblt : fromBytes bs < 2 ^ (8 * bs.length) := fromBytes_lt bs htail
    have hcons : ∀ (x : Nat) (xs : List Nat), fromBytes (x :: xs) =
        2 ^ (8 * xs.length) * x + fromBytes xs := by
      intro x xs; rw [fromBytes_cons, Nat.mul_comm]
    have hsplit : setHostBits bits i (b :: bs) =
        (if i * 8 + 8 ≤ bits then b
         else if bits ≤ i * 8 then 255
         else b ||| (2 ^ (i * 8 + 8 - bits) - 1)) :: rest := rfl
    rw [hsplit, hcons, hlen, Nat.testBit_mul_pow_two_add _ hrlt j]
    by_cases hj : j < 8 * bs.length
    · -- the bit lies in the tail
      rw [if_pos hj, setHostBits_testBit bits bs (i + 1) htail j, if_pos hj]
      have hjlen : j < 8 * (b :: bs).length := by simp [List.length_cons]; omega
      rw [if_pos hjlen]
      have hcond : 8 * (i + 1) + 8 * bs.length - 1 - j = 8 * i + 8 * (b :: bs).length - 1 - j := by
        simp [List.length_cons]; omega
      rw [hcond]
      rw [hcons b bs, Nat.testBit_mul_pow_two_add _ hblt j, if_pos hj]
    · -- the bit lies in the head byte or beyond
      rw [if_neg hj]
      by_cases hj8 : j < 8 * (b :: bs).length
      · rw [if_pos hj8]
        have hjrange : 8 * bs.length ≤ j ∧ j < 8 * bs.length + 8 := by
          simp only [List.length_cons] at hj8; omega
        have hhead : (fromBytes (b :: bs)).testBit j = b.testBit (j - 8 * bs.length) := by
          rw [hcons b bs, Nat.testBit_mul_pow_two_add _ hblt j, if_neg hj]
        by_cases h1 : i * 8 + 8 ≤ bits
        · -- all network: byte kept, and the global position is below `bits`
          rw [if_pos h1]
          have : 8 * i + 8 * (b :: bs).length - 1 - j < bits := by
            simp only [List.length_cons] at *; omega
          rw [if_pos this, hhead]
        · by_cases h2 : bits ≤ i * 8
          · -- all host: byte is 255 and the global position is at or above `bits`
            rw [if_neg h1, if_pos h2]
            have : ¬ (8 * i + 8 * (b :: bs).length - 1 - j < bits) := by
              simp only [List.length_cons] at *; omega
            rw [if_neg this]
            have h255 : (255 : Nat) = 2 ^ 8 - 1 := by norm_num
            rw [h255, Nat.testBit_two_pow_sub_one]
            simp only [decide_eq_true_eq]
            omega
          · -- split byte
            rw [if_neg h1, if_neg h2, Nat.testBit_or, hhead]
            have h255 : (2 : Nat) ^ (i * 8 + 8 - bits) - 1 ≥ 0 := Nat.zero_le _
            rw [Nat.testBit_two_pow_sub_one]
            by_cases hc : 8 * i + 8 * (b :: bs).length - 1 - j < bits
            · rw [if_pos hc]
              have : ¬ (j - 8 * bs.length < i * 8 + 8 - bits) := by
                simp only [List.length_cons] at hc; omega
              simp [this]
            · rw [if_neg hc]
              have : j - 8 * bs.length < i * 8 + 8 - bits := by
                simp only [List.length_cons] at hc; omega
              simp [this]
      · -- beyond the whole value
        rw [if_neg hj8]
        have hble : (if i * 8 + 8 ≤ bits then b
            else if bits ≤ i * 8 then 255
            else b ||| (2 ^ (i * 8 + 8 - bits) - 1)) < 256 := by
          by_cases h1 : i * 8 + 8 ≤ bits
          · simpa [h1] using hb
          · by_cases h2 : bits ≤ i * 8
            · simp [h1, h2]
            · simp only [h1, h2, if_false]
              have hmask : (2 : Nat) ^ (i * 8 + 8 - bits) - 1 < 256 := by
                have : (2 : Nat) ^ (i * 8 + 8 - bits) ≤ 2 ^ 8 :=
                  Nat.pow_le_pow_right (by norm_num) (by omega)
                omega
              have h8 : (256 : Nat) = 2 ^ 8 := by norm_num
              rw [h8]
              exact Nat.or_lt_two_pow (by omega) (by omega)
        apply Nat.testBit_lt_two_pow
        calc (if i * 8 + 8 ≤ bits then b
            else if bits ≤ i * 8 then 255
            else b ||| (2 ^ (i * 8 + 8 - bits) - 1)) < 2 ^ 8 := by omega
          _ ≤ 2 ^ (j - 8 * bs.length) := by
            apply Nat.pow_le_pow_right (by norm_num)
            simp only [List.length_cons] at hj8; omega

/-! ### Helper lemmas: `lastAddrInPfx` -/

theorem famBits_eq_bytes (is6 : Bool) : famBits is6 = 8 * famBytes is6 := by
  cases is6 <;> rfl

theorem addrBitsOf_eq (p : Pfx) : addrBitsOf p = famBits p.addr.is6 := rfl

/-- Bit-level correctness of `lastAddrInPrefix`: every host bit (distance from
the most significant end at least `bits`, i.e. numeric bit index below
`famBits - bits`) is set, every network bit keeps its value. -/
theorem lastAddrInPfx_testBit (p : Pfx) (hwf : p.Wf) (j : Nat) :
    (lastAddrInPfx p).val.testBit j =
      if j < famBits p.addr.is6 - p.bits then true else p.addr.val.testBit j := by
  obtain ⟨hv, hb⟩ := hwf
  set A := famBits p.addr.is6 with hA
  set w := famBytes p.addr.is6 with hw
  have h8w : A = 8 * w := famBits_eq_bytes p.addr.is6
  have hlen : (toBytes w p.addr.val).length = w := toBytes_length w p.addr.val
  have hlt : ∀ b ∈ toBytes w p.addr.val, b < 256 := toBytes_lt w p.addr.val
  have hmain := setHostBits_testBit p.bits (toBytes w p.addr.val) 0 hlt j
  rw [hlen] at hmain
  have hfb : fromBytes (toBytes w p.addr.val) = p.addr.val := by
    rw [fromBytes_toBytes, ← h8w]
    exact Nat.mod_eq_of_lt (by rwa [hA])
  rw [hfb] at hmain
  show (fromBytes (setHostBits p.bits 0 (toBytes w p.addr.val))).testBit j = _
  rw [hmain]
  by_cases hj : j < 8 * w
  · rw [if_pos hj]
    by_cases hc : 8 * 0 + 8 * w - 1 - j < p.bits
    · rw [if_pos hc]
      have : ¬ (j < A - p.bits) := by omega
      rw [if_neg this]
    · rw [if_neg hc]
      have : j < A - p.bits := by omega
      rw [if_pos this]
  · rw [if_neg hj]
    have h1 : ¬ (j < A - p.bits) := by omega
    rw [if_neg h1]
    have : p.addr.val < 2 ^ j := by
      calc p.addr.val < 2 ^ A := by rwa [hA]
        _ ≤ 2 ^ j := Nat.pow_le_pow_right (by norm_num) (by omega)
    exact (Nat.testBit_lt_two_pow this).symm

/-- Numeric form: the last address is the given address with the host mask
OR-ed in. -/
theorem lastAddrInPfx_val (p : Pfx) (hwf : p.Wf) :
    (lastAddrInPfx p).val = p.addr.val ||| (2 ^ (famBits p.addr.is6 - p.bits) - 1) := by
  apply Nat.eq_of_testBit_eq
  intro j
  rw [lastAddrInPfx_testBit p hwf j, Nat.testBit_or, Nat.testBit_two_pow_sub_one]
  by_cases hj : j < famBits p.addr.is6 - p.bits
  · simp [hj]
  · simp [hj]

theorem lastAddrInPfx_wf (p : Pfx) (hwf : p.Wf) : (lastAddrInPfx p).Wf := by
  show (lastAddrInPfx p).val < 2 ^ famBits (lastAddrInPfx p).is6
  have h6 : (lastAddrInPfx p).is6 = p.addr.is6 := rfl
  rw [h6, lastAddrInPfx_val p hwf]
  apply Nat.or_lt_two_pow hwf.1
  have : (2 : Nat) ^ (famBits p.addr.is6 - p.bits) ≤ 2 ^ famBits p.addr.is6 :=
    Nat.pow_le_pow_right (by norm_num) (by omega)
  have hpos : (0 : Nat) < 2 ^ (famBits p.addr.is6 - p.bits) := Nat.pos_pow_of_pos _ (by norm_num)
  omega

/-- On a canonical address (host bits all zero) OR-ing the host mask is
addition of the host mask. -/
theorem or_mask_eq_add {a h : Nat} (ha : a % 2 ^ h = 0) :
    a ||| (2 ^ h - 1) = a + (2 ^ h - 1) := by
  have hdvd : 2 ^ h ∣ a := Nat.dvd_of_mod_eq_zero ha
  have hq : 2 ^ h * (a / 2 ^ h) = a := Nat.mul_div_cancel' hdvd
  have hm : 2 ^ h - 1 < 2 ^ h := by
    have : (0 : Nat) < 2 ^ h := Nat.pos_pow_of_pos _ (by norm_num)
    omega
  have h0 : (0 : Nat) < 2 ^ h := Nat.pos_pow_of_pos _ (by norm_num)
  apply Nat.eq_of_testBit_eq
  intro j
  rw [Nat.testBit_or, Nat.testBit_two_pow_sub_one]
  conv_lhs => rw [← hq]
  conv_rhs => rw [← hq]
  rw [show 2 ^ h * (a / 2 ^ h) + (2 ^ h - 1) = 2 ^ h * (a / 2 ^ h) + (2 ^ h - 1) from rfl,
    Nat.testBit_mul_pow_two_add _ hm j]
  have hz : 2 ^ h * (a / 2 ^ h) = 2 ^ h * (a / 2 ^ h) + 0 := by omega
  rw [hz, Nat.testBit_mul_pow_two_add _ h0 j]
  by_cases hj : j < h
  · simp [hj, Nat.testBit_two_pow_sub_one]
  · simp [hj]

/-! ### Helper lemmas: the enumeration loop -/

theorem walkFuel_spec : ∀ (k a : Nat), walkFuel k (a + k) a = (List.range (k + 1)).map (a + ·)
  | 0, a => by simp [walkFuel, List.range_succ]
  | k + 1, a => by
    show (if a = a + (k + 1) then [a] else a :: walkFuel k (a + (k + 1)) (a + 1)) = _
    rw [if_neg (by omega)]
    have h2 : a + (k + 1) = (a + 1) + k := by omega
    rw [h2, walkFuel_spec k (a + 1)]
    have hfg : ((a + 1) + ·) = ((a + ·) ∘ Nat.succ) := by
      funext x
      show a + 1 + x = a + Nat.succ x
      omega
    rw [List.range_succ_eq_map (k + 1), List.map_cons, List.map_map, ← hfg]
    simp

/-- For `a ≤ last` the loop visits exactly the consecutive values from `a`
to `last`. -/
theorem walk_spec (last a : Nat) (h : a ≤ last) :
    walk last a = (List.range (last - a + 1)).map (a + ·) := by
  rw [walk]
  have : last = a + (last - a) := by omega
  rw [this]
  have hk : a + (last - a) - a = last - a := by omega
  rw [hk]
  exact walkFuel_spec (last - a) a

theorem walk_self (a : Nat) : walk a a = [a] := by
  rw [walk, Nat.sub_self]
  rfl

/-! ### Helper lemmas: `Lookup` -/

theorem contains_iff_mem {l : List String} {s : String} : l.contains s = true ↔ s ∈ l := by
  simp [List.contains]

theorem mem_lookupStep {a : Addr} {acc : List String} {e : Entry} {l : String} :
    l ∈ lookupStep a acc e ↔ l ∈ acc ∨ (e.pfx.containsB a = true ∧ e.label = l) := by
  unfold lookupStep
  by_cases hc : e.pfx.containsB a
  · by_cases hm : acc.contains e.label
    · have hmem : e.label ∈ acc := contains_iff_mem.mp hm
      simp only [hc, hm, Bool.not_true, Bool.and_false, Bool.false_eq_true, if_false]
      constructor
      · exact Or.inl
      · rintro (h | ⟨-, rfl⟩)
        · exact h
        · exact hmem
    · simp only [hc, hm, Bool.not_false, Bool.and_true, if_true, List.mem_append,
        List.mem_singleton, true_and]
      constructor
      · rintro (h | rfl)
        · exact Or.inl h
        · exact Or.inr rfl.symm
      · rintro (h | h)
        · exact Or.inl h
        · exact Or.inr h.symm
  · simp only [Bool.not_eq_true] at hc
    simp [hc]

theorem mem_foldl_lookupStep {a : Addr} : ∀ (es : List Entry) (acc : List String) (l : String),
    l ∈ es.foldl (lookupStep a) acc ↔
      l ∈ acc ∨ ∃ e ∈ es, e.label = l ∧ e.pfx.containsB a = true
  | [], acc, l => by simp
  | e :: es, acc, l => by
    rw [List.foldl_cons, mem_foldl_lookupStep es (lookupStep a acc e) l, mem_lookupStep]
    simp only [List.mem_cons]
    constructor
    · rintro ((h | ⟨hc, hl⟩) | ⟨e', he', hl, hc⟩)
      · exact Or.inl h
      · exact Or.inr ⟨e, Or.inl rfl, hl, hc⟩
      · exact Or.inr ⟨e', Or.inr he', hl, hc⟩
    · rintro (h | ⟨e', (rfl | he'), hl, hc⟩)
      · exact Or.inl (Or.inl h)
      · exact Or.inl (Or.inr ⟨hc, hl⟩)
      · exact Or.inr ⟨e', he', hl, hc⟩

theorem nodup_foldl_lookupStep {a : Addr} : ∀ (es : List Entry) (acc : List String),
    acc.Nodup → (es.foldl (lookupStep a) acc).Nodup
  | [], _, h => h
  | e :: es, acc, h => by
    rw [List.foldl_cons]
    apply nodup_foldl_lookupStep es
    unfold lookupStep
    by_cases hc : (e.pfx.containsB a && !(acc.contains e.label)) = true
    · rw [if_pos hc]
      have hnm : e.label ∉ acc := by
        intro hmem
        rw [Bool.and_eq_true, Bool.not_eq_true'] at hc
        have := contains_iff_mem.mpr hmem
        rw [hc.2] at this
        exact Bool.false_ne_true this
      simp [List.nodup_append, h, hnm]
    · rw [if_neg hc]; exact h

theorem mem_lookupFold {entries : List Entry} {a : Addr} {l : String} :
    l ∈ lookupFold entries a ↔ ∃ e ∈ entries, e.label = l ∧ e.pfx.containsB a = true := by
  rw [lookupFold, mem_foldl_lookupStep]
  simp

theorem lookupFold_nodup (entries : List Entry) (a : Addr) : (lookupFold entries a).Nodup :=
  nodup_foldl_lookupStep entries [] List.nodup_nil

theorem Lookup_sorted (m : Option MetaData) (a : Option Addr) :
    List.Sorted (fun x y : String => x ≤ y) (Lookup m a) := by
  match m, a with
  | some entries, some addr => exact sortStrings_sorted _
  | none, _ => exact List.sorted_nil
  | some _, none => exact List.sorted_nil

theorem Lookup_nodup (m : Option MetaData) (a : Option Addr) : (Lookup m a).Nodup := by
  match m, a with
  | some entries, some addr => exact sortStrings_nodup (lookupFold_nodup entries addr)
  | none, _ => exact List.nodup_nil
  | some _, none => exact List.nodup_nil

theorem mem_Lookup {entries : List Entry} {addr : Addr} {l : String} :
    l ∈ Lookup (some entries) (some addr) ↔
      ∃ e ∈ entries, e.label = l ∧ e.pfx.containsB addr = true := by
  show l ∈ sortStrings (lookupFold entries addr) ↔ _
  rw [mem_sortStrings, mem_lookupFold]

/-! ### Helper lemmas: counting and the signature distribution -/

theorem countP_isEmpty_split (l : List (List String)) :
    l.countP (fun x => !x.isEmpty) + l.countP (fun x => x.isEmpty) = l.length := by
  have h := List.length_eq_countP_add_countP (fun x : List String => !x.isEmpty) l
  have hcong : (fun a : List String => decide (¬(!a.isEmpty) = true))
      = (fun a : List String => a.isEmpty) := by
    funext a
    cases a <;> simp
  rw [hcong] at h
  omega

theorem mem_sigCounts {sigs : List String} {s : String} {c : Nat} :
    (s, c) ∈ sigCounts sigs ↔ s ∈ sigs ∧ c = sigs.count s := by
  unfold sigCounts
  rw [List.mem_map]
  constructor
  · rintro ⟨k, hk, hpair⟩
    have hks : k = s := congrArg Prod.fst hpair
    have hcc : sigs.count k = c := congrArg Prod.snd hpair
    subst hks
    exact ⟨List.mem_dedup.mp (mem_sortStrings.mp hk), hcc.symm⟩
  · rintro ⟨hs, rfl⟩
    exact ⟨s, mem_sortStrings.mpr (List.mem_dedup.mpr hs), rfl⟩

theorem sigCounts_keys (sigs : List String) :
    (sigCounts sigs).map Prod.fst = sortStrings sigs.dedup := by
  unfold sigCounts
  rw [List.map_map]
  have hid : (Prod.fst ∘ fun s : String => (s, sigs.count s)) = id := rfl
  rw [hid, List.map_id]

theorem sigCounts_keys_sorted (sigs : List String) :
    List.Sorted (fun x y : String => x ≤ y) ((sigCounts sigs).map Prod.fst) := by
  rw [sigCounts_keys]
  exact sortStrings_sorted _

theorem sigCounts_keys_nodup (sigs : List String) :
    ((sigCounts sigs).map Prod.fst).Nodup := by
  rw [sigCounts_keys]
  exact sortStrings_nodup (List.nodup_dedup _)

theorem count_ownedSigs (m : MetaData) (p : Pfx) (s : String) :
    (ownedSigs m p).count s =
      (lookupsOf m p).countP (fun l => !l.isEmpty && (sigOf l == s)) := by
  unfold ownedSigs
  rw [List.count_eq_countP, List.countP_map, List.countP_filter]
  have hcong : (fun a : List String => ((fun x => x == s) ∘ sigOf) a && !a.isEmpty)
      = (fun l : List String => !l.isEmpty && (sigOf l == s)) := by
    funext a
    simp [Function.comp, Bool.and_comm]
  rw [hcong]

theorem mem_ownedSigs {m : MetaData} {p : Pfx} {s : String} :
    s ∈ ownedSigs m p ↔ 0 < (ownedSigs m p).count s :=
  List.count_pos_iff.symm

/-! ### Helper lemmas: payload parsing -/

theorem extractStrings_map (ss : List String) :
    extractStrings (ss.map JValue.str) = some ss := by
  induction ss with
  | nil => rfl
  | cons s ss ih => simp [extractStrings, ih]

theorem extractStrings_some : ∀ (xs : List JValue) (ss : List String),
    extractStrings xs = some ss → xs = ss.map JValue.str := by
  intro xs
  induction xs with
  | nil =>
    intro ss h
    simp only [extractStrings, Option.some.injEq] at h
    subst h
    rfl
  | cons x xs ih =>
    intro ss h
    cases x with
    | str s =>
      simp only [extractStrings, Option.map_eq_some'] at h
      obtain ⟨ss', h1, rfl⟩ := h
      simp [ih ss' h1]
    | num n => simp [extractStrings] at h
    | bool b => simp [extractStrings] at h
    | null => simp [extractStrings] at h
    | arr l => simp [extractStrings] at h
    | obj fs => simp [extractStrings] at h

theorem extractStringSlice_eq_some {v : JValue} {ss : List String} :
    extractStringSlice v = some ss ↔ v = .arr (ss.map JValue.str) := by
  cases v with
  | arr xs =>
    simp only [extractStringSlice, JValue.arr.injEq]
    exact ⟨extractStrings_some xs ss, fun h => h ▸ extractStrings_map ss⟩
  | str s => simp [extractStringSlice]
  | num n => simp [extractStringSlice]
  | bool b => simp [extractStringSlice]
  | null => simp [extractStringSlice]
  | obj fs => simp [extractStringSlice]

theorem mem_entriesOfField {parse : String → Option Pfx} {label : String}
    {cs : List String} {e : Entry} :
    e ∈ entriesOfField parse label cs ↔
      e.label = label ∧ ∃ c ∈ cs, parse c = some e.pfx := by
  unfold entriesOfField
  rw [List.mem_map]
  constructor
  · rintro ⟨q, hq, rfl⟩
    obtain ⟨c, hc, hp⟩ := List.mem_filterMap.mp hq
    exact ⟨rfl, c, hc, hp⟩
  · rintro ⟨hl, c, hc, hp⟩
    refine ⟨e.pfx, List.mem_filterMap.mpr ⟨c, hc, hp⟩, ?_⟩
    cases e
    simp only at hl
    rw [hl]

theorem mem_rawEntries {parse : String → Option Pfx} {fields : List (String × JValue)}
    {e : Entry} :
    e ∈ rawEntries parse fields ↔
      ∃ lv ∈ fields, e.label = lv.1 ∧ ∃ cs, extractStringSlice lv.2 = some cs ∧
        ∃ c ∈ cs, parse c = some e.pfx := by
  unfold rawEntries
  rw [List.mem_flatMap]
  constructor
  · rintro ⟨lv, hlv, he⟩
    cases hext : extractStringSlice lv.2 with
    | none => rw [hext] at he; cases he
    | some cs =>
      rw [hext] at he
      obtain ⟨hl, c, hc, hp⟩ := mem_entriesOfField.mp he
      exact ⟨lv, hlv, hl, cs, hext, c, hc, hp⟩
  · rintro ⟨lv, hlv, hl, cs, hext, c, hc, hp⟩
    refine ⟨lv, hlv, ?_⟩
    rw [hext]
    exact mem_entriesOfField.mpr ⟨hl, c, hc, hp⟩

theorem sortEntries_perm (render : Pfx → String) (es : List Entry) :
    (sortEntries render es).Perm es :=
  List.perm_insertionSort _ es

theorem parseMetaJSON_error_iff {parse : String → Option Pfx} {render : Pfx → String}
    {fields : List (String × JValue)} :
    parseMetaJSON parse render fields = .error "no CIDR entries found in meta response" ↔
      rawEntries parse fields = [] := by
  unfold parseMetaJSON
  by_cases h : (rawEntries parse fields).isEmpty
  · simp [h, List.isEmpty_iff.mp h]
  · simp only [h, if_false]
    constructor
    · intro hcon; cases hcon
    · intro hnil
      exact absurd (by simp [hnil] : (rawEntries parse fields).isEmpty = true) h

theorem parseMetaJSON_ok_iff {parse : String → Option Pfx} {render : Pfx → String}
    {fields : List (String × JValue)} {es : List Entry} :
    parseMetaJSON parse render fields = .ok es ↔
      rawEntries parse fields ≠ [] ∧ es = sortEntries render (rawEntries parse fields) := by
  unfold parseMetaJSON
  by_cases h : (rawEntries parse fields).isEmpty
  · simp [h, List.isEmpty_iff.mp h]
  · have hne : rawEntries parse fields ≠ [] := by
      intro hnil
      exact absurd (by simp [hnil] : (rawEntries parse fields).isEmpty = true) h
    rw [if_neg h]
    simp only [Except.ok.injEq]
    exact ⟨fun he => ⟨hne, he.symm⟩, fun he => he.2.symm⟩

/-! ### Helper lemmas: the evaluator -/

theorem hostBitsOf_eq (p : Pfx) : hostBitsOf p = famBits p.addr.is6 - p.bits := rfl

theorem countOf_of_small {p : Pfx} (h : ¬ 64 ≤ hostBitsOf p) :
    countOf p = 2 ^ hostBitsOf p := by
  unfold countOf
  rw [if_neg h]

theorem countOf_of_large {p : Pfx} (h : 64 ≤ hostBitsOf p) :
    countOf p = defaultThreshold + 1 := by
  unfold countOf
  rw [if_pos h]

theorem countOf_gt_iff (p : Pfx) :
    defaultThreshold < countOf p ↔ defaultThreshold < 2 ^ hostBitsOf p := by
  by_cases h : 64 ≤ hostBitsOf p
  · rw [countOf_of_large h]
    have h1 : (2 : Nat) ^ 64 ≤ 2 ^ hostBitsOf p := Nat.pow_le_pow_right (by norm_num) h
    have h2 : (4096 : Nat) < 2 ^ 64 := by norm_num
    show defaultThreshold < defaultThreshold + 1 ↔ _
    unfold defaultThreshold
    omega
  · rw [countOf_of_small h]

theorem evaluateCIDR_eval_eq {m : MetaData} {p : Pfx} (h : ¬ defaultThreshold < countOf p) :
    evaluateCIDR m p = CIDRResult.evaluated
      ((lookupsOf m p).countP (fun l => !l.isEmpty))
      ((lookupsOf m p).countP (fun l => l.isEmpty))
      (sigCounts (ownedSigs m p)) := by
  unfold evaluateCIDR
  rw [if_neg h]

theorem evaluateCIDR_tooLarge_eq {m : MetaData} {p : Pfx} (h : defaultThreshold < countOf p) :
    evaluateCIDR m p = CIDRResult.tooLarge (countOf p) defaultThreshold := by
  unfold evaluateCIDR
  rw [if_pos h]

/-- On a canonical prefix the loop visits exactly the `2 ^ hostBits` consecutive
addresses starting at the network address. -/
theorem enumAddrs_canonical (p : Pfx) (hwf : p.Wf)
    (hcan : p.addr.val % 2 ^ hostBitsOf p = 0) :
    enumAddrs p = (List.range (2 ^ hostBitsOf p)).map (p.addr.val + ·) := by
  have hlast : (lastAddrInPfx p).val = p.addr.val + (2 ^ hostBitsOf p - 1) := by
    rw [lastAddrInPfx_val p hwf, ← hostBitsOf_eq, or_mask_eq_add hcan]
  have hpos : 0 < 2 ^ hostBitsOf p := Nat.pos_pow_of_pos _ (by norm_num)
  unfold enumAddrs
  rw [hlast, walk_spec _ _ (by omega)]
  have harg : p.addr.val + (2 ^ hostBitsOf p - 1) - p.addr.val + 1 = 2 ^ hostBitsOf p := by
    omega
  rw [harg]

theorem lookupsOf_length (m : MetaData) (p : Pfx) :
    (lookupsOf m p).length = (enumAddrs p).length := by
  unfold lookupsOf
  rw [List.length_map]

/-! ### Claim theorems -/

/-- C1 counterexample: the claim quantifies over every CIDR range with
`2 ^ (A - p)` addresses under the threshold, but `netip.ParsePrefix` keeps
host bits, and on `192.168.1.2/30` (count `2 ^ 2 = 4 ≤ 4096`) the evaluator
starts at the given address `192.168.1.2`, not at the range's first address
`192.168.1.0`, and enumerates only 2 addresses, not 4. -/
theorem evaluateCIDR_count_counterexample :
    2 ^ hostBitsOf ⟨⟨false, 3232235778⟩, 30⟩ = 4 ∧
    2 ^ hostBitsOf ⟨⟨false, 3232235778⟩, 30⟩ ≤ defaultThreshold ∧
    (enumAddrs ⟨⟨false, 3232235778⟩, 30⟩).length = 2 ∧
    enumAddrs ⟨⟨false, 3232235778⟩, 30⟩ = [3232235778, 3232235779] ∧
    evaluateCIDR [] ⟨⟨false, 3232235778⟩, 30⟩ = CIDRResult.evaluated 0 2 [] ∧
    (2 : Nat) ≠ 4 := by
  decide

/-- C1 (amended: restricted to canonical prefixes, whose address has all host
bits zero): for every store and every well-formed canonical prefix with
`2 ^ hostBits ≤ 4096` addresses, the evaluator walks exactly `2 ^ hostBits`
addresses in ascending numeric order from the range's first address to its
last address inclusive, issues one Membership Engine (`Lookup`) call per
address, and the reported counts satisfy `owned + notOwned = evaluated`. -/
theorem evaluateCIDR_enumeration_canonical (m : MetaData) (p : Pfx)
    (hwf : p.Wf) (hcan : p.addr.val % 2 ^ hostBitsOf p = 0)
    (hsmall : 2 ^ hostBitsOf p ≤ defaultThreshold) :
    enumAddrs p = (List.range (2 ^ hostBitsOf p)).map (p.addr.val + ·) ∧
    (enumAddrs p).length = 2 ^ hostBitsOf p ∧
    lookupsOf m p = (enumAddrs p).map
      (fun v => Lookup (some m) (some { is6 := p.addr.is6, val := v })) ∧
    evaluateCIDR m p = CIDRResult.evaluated
      ((lookupsOf m p).countP (fun l => !l.isEmpty))
      ((lookupsOf m p).countP (fun l => l.isEmpty))
      (sigCounts (ownedSigs m p)) ∧
    (∀ o n dist, evaluateCIDR m p = CIDRResult.evaluated o n dist →
      o + n = 2 ^ hostBitsOf p) := by
  have henum := enumAddrs_canonical p hwf hcan
  have hlen : (enumAddrs p).length = 2 ^ hostBitsOf p := by
    rw [henum, List.length_map, List.length_range]
  have hnl : ¬ defaultThreshold < countOf p := by
    rw [countOf_gt_iff]
    omega
  have heval := evaluateCIDR_eval_eq (m := m) (p := p) hnl
  refine ⟨henum, hlen, rfl, heval, ?_⟩
  intro o n dist heq
  rw [heval] at heq
  injection heq with ho hn hdist
  rw [← ho, ← hn, countP_isEmpty_split, lookupsOf_length, hlen]

/-- C1 witness: the amended theorem applied to the canonical prefix
`192.168.1.0/30` over the empty store. -/
theorem evaluateCIDR_enumeration_canonical_witness :
    enumAddrs ⟨⟨false, 3232235776⟩, 30⟩ = (List.range 4).map (3232235776 + ·) ∧
    evaluateCIDR [] ⟨⟨false, 3232235776⟩, 30⟩ = CIDRResult.evaluated 0 4 [] := by
  have h := evaluateCIDR_enumeration_canonical [] ⟨⟨false, 3232235776⟩, 30⟩
    (by decide) (by decide) (by decide)
  exact ⟨h.1, by decide⟩

/-- C2: `lastAddrInPrefix` sets every host bit (numeric bit index below
`A - bits`, i.e. bit position at or beyond the prefix length counted from the
most significant end) and leaves every network bit untouched, including inside
a byte split between network and host bits; a full-length (`/32` or `/128`)
prefix has `last = first` and enumerates exactly one address; concretely,
`lastAddress(192.168.1.0/30) = 192.168.1.3`,
`lastAddress(2001:db8::/126) = 2001:db8::3`, and
`lastAddress(192.168.1.0/32) = 192.168.1.0`. -/
theorem lastAddr_spec :
    (∀ p : Pfx, p.Wf →
      (lastAddrInPfx p).is6 = p.addr.is6 ∧
      (∀ j, (lastAddrInPfx p).val.testBit j =
        if j < famBits p.addr.is6 - p.bits then true else p.addr.val.testBit j) ∧
      (lastAddrInPfx p).val = p.addr.val ||| (2 ^ (famBits p.addr.is6 - p.bits) - 1) ∧
      (p.bits = famBits p.addr.is6 →
        lastAddrInPfx p = p.addr ∧ enumAddrs p = [p.addr.val])) ∧
    lastAddrInPfx ⟨⟨false, 3232235776⟩, 30⟩ = ⟨false, 3232235779⟩ ∧
    lastAddrInPfx ⟨⟨true, 42540766411282592856903984951653826560⟩, 126⟩ =
      ⟨true, 42540766411282592856903984951653826563⟩ ∧
    lastAddrInPfx ⟨⟨false, 3232235776⟩, 32⟩ = ⟨false, 3232235776⟩ ∧
    enumAddrs ⟨⟨false, 3232235776⟩, 32⟩ = [3232235776] ∧
    enumAddrs ⟨⟨true, 42540766411282592856903984951653826560⟩, 128⟩ =
      [42540766411282592856903984951653826560] := by
  refine ⟨?_, by decide, by decide, by decide, by decide, by decide⟩
  intro p hwf
  refine ⟨rfl, lastAddrInPfx_testBit p hwf, lastAddrInPfx_val p hwf, ?_⟩
  intro hfull
  have hval : (lastAddrInPfx p).val = p.addr.val := by
    rw [lastAddrInPfx_val p hwf, hfull, Nat.sub_self, pow_zero]
    simp
  constructor
  · have h6 : (lastAddrInPfx p).is6 = p.addr.is6 := rfl
    cases hl : lastAddrInPfx p
    cases ha : p.addr
    rw [hl, ha] at hval h6
    simp only at hval h6
    rw [h6, hval]
  · unfold enumAddrs
    rw [hval, walk_self]

/-- C2 witness: the general part applied to the full-length prefix
`10.0.0.1/32`. -/
theorem lastAddr_spec_witness :
    lastAddrInPfx ⟨⟨false, 167772161⟩, 32⟩ = ⟨false, 167772161⟩ ∧
    enumAddrs ⟨⟨false, 167772161⟩, 32⟩ = [167772161] :=
  (lastAddr_spec.1 ⟨⟨false, 167772161⟩, 32⟩ (by decide)).2.2.2 (by decide)

/-- C3: whenever the range's address count `2 ^ hostBits` exceeds the
threshold, the evaluator reports `RangeTooLarge` with the computed count and
the threshold and never produces an evaluation report (zero addresses
enumerated); when the count fits 64 bits the reported count is exactly
`2 ^ hostBits`. -/
theorem rangeTooLarge_spec (m : MetaData) (p : Pfx)
    (hbig : defaultThreshold < 2 ^ hostBitsOf p) :
    evaluateCIDR m p = CIDRResult.tooLarge (countOf p) defaultThreshold ∧
    (hostBitsOf p < 64 → countOf p = 2 ^ hostBitsOf p) ∧
    (∀ o n dist, evaluateCIDR m p ≠ CIDRResult.evaluated o n dist) := by
  have hgt : defaultThreshold < countOf p := (countOf_gt_iff p).mpr hbig
  have heq := evaluateCIDR_tooLarge_eq (m := m) (p := p) hgt
  refine ⟨heq, fun h64 => countOf_of_small (by omega), ?_⟩
  intro o n dist hcon
  rw [heq] at hcon
  cases hcon

/-- C3 witness: `192.168.0.0/16` (65536 addresses) over the empty store. -/
theorem rangeTooLarge_spec_witness :
    evaluateCIDR [] ⟨⟨false, 3232235520⟩, 16⟩ = CIDRResult.tooLarge 65536 4096 ∧
    countOf ⟨⟨false, 3232235520⟩, 16⟩ = 65536 := by
  have h := rangeTooLarge_spec [] ⟨⟨false, 3232235520⟩, 16⟩ (by decide)
  exact ⟨by decide, h.2.1 (by decide)⟩

/-- C4: the count is computed as `2 ^ (A - p)` exactly (with no wrap-around:
it is below `2 ^ 64`) whenever `A - p < 64`; when `A - p ≥ 64`, where the
exact count would not fit an unsigned 64-bit counter, the range is treated as
exceeding the threshold via the sentinel `threshold + 1` without the exact
count being computed. -/
theorem countOf_no_overflow (m : MetaData) (p : Pfx) :
    (hostBitsOf p < 64 → countOf p = 2 ^ hostBitsOf p ∧ countOf p < 2 ^ 64) ∧
    (64 ≤ hostBitsOf p →
      countOf p = defaultThreshold + 1 ∧
      evaluateCIDR m p = CIDRResult.tooLarge (defaultThreshold + 1) defaultThreshold) := by
  constructor
  · intro h64
    have hc := countOf_of_small (p := p) (by omega)
    refine ⟨hc, ?_⟩
    rw [hc]
    exact Nat.pow_lt_pow_right (by norm_num) h64
  · intro h64
    have hc := countOf_of_large (p := p) h64
    refine ⟨hc, ?_⟩
    have hgt : defaultThreshold < countOf p := by rw [hc]; omega
    rw [evaluateCIDR_tooLarge_eq hgt, hc]

/-- C4 witness: `2001:db8::/64` has `hostBits = 64`; the evaluator reports the
sentinel count 4097 against the threshold 4096. -/
theorem countOf_no_overflow_witness :
    countOf ⟨⟨true, 42540766411282592856903984951653826560⟩, 64⟩ = 4097 ∧
    evaluateCIDR [] ⟨⟨true, 42540766411282592856903984951653826560⟩, 64⟩ =
      CIDRResult.tooLarge 4097 4096 :=
  (countOf_no_overflow [] ⟨⟨true, 42540766411282592856903984951653826560⟩, 64⟩).2
    (by decide)

/-- C5: `Lookup` is total: a nil store or an invalid address yields the empty
result, and otherwise the result is an alphabetically sorted, duplicate-free
list containing exactly the labels for which some entry under that label
contains the address (an empty result is an ordinary value, not a fault). -/
theorem Lookup_spec :
    (∀ a : Option Addr, Lookup none a = []) ∧
    (∀ m : Option MetaData, Lookup m none = []) ∧
    ∀ (entries : List Entry) (addr : Addr),
      List.Sorted (fun x y : String => x ≤ y) (Lookup (some entries) (some addr)) ∧
      (Lookup (some entries) (some addr)).Nodup ∧
      ∀ l, l ∈ Lookup (some entries) (some addr) ↔
        ∃ e ∈ entries, e.label = l ∧ e.pfx.containsB addr = true := by
  refine ⟨fun a => ?_, fun m => ?_, fun entries addr =>
    ⟨Lookup_sorted _ _, Lookup_nodup _ _, fun l => mem_Lookup⟩⟩
  · cases a <;> rfl
  · cases m <;> rfl

/-- C6: in an evaluation report the label distribution is keyed by the
canonical signature (labels sorted alphabetically, joined with a comma), its
keys are sorted and duplicate-free, and a pair `(s, c)` appears exactly when
some owned address has signature `s` and `c` is the number of enumerated
addresses whose (non-empty) label set has signature `s`; concretely, an
address inside both the `hooks` and the `api` block is counted under
`"api,hooks"`, which is distinct from either label alone. -/
theorem sig_aggregation_spec (m : MetaData) (p : Pfx) (o n : Nat)
    (dist : List (String × Nat))
    (heval : evaluateCIDR m p = CIDRResult.evaluated o n dist) :
    (∀ l, sigOf l = String.intercalate "," (sortStrings l)) ∧
    List.Sorted (fun x y : String => x ≤ y) (dist.map Prod.fst) ∧
    (dist.map Prod.fst).Nodup ∧
    (∀ s c, (s, c) ∈ dist ↔
      (0 < (lookupsOf m p).countP (fun l => !l.isEmpty && (sigOf l == s)) ∧
       c = (lookupsOf m p).countP (fun l => !l.isEmpty && (sigOf l == s)))) ∧
    evaluateCIDR
        [⟨"hooks", ⟨⟨false, 3223256064⟩, 22⟩⟩, ⟨"api", ⟨⟨false, 3223256064⟩, 24⟩⟩]
        ⟨⟨false, 3223256064⟩, 30⟩ = CIDRResult.evaluated 4 0 [("api,hooks", 4)] ∧
    ("api,hooks" : String) ≠ "api" ∧ ("api,hooks" : String) ≠ "hooks" := by
  have hdist : dist = sigCounts (ownedSigs m p) := by
    by_cases h : defaultThreshold < countOf p
    · rw [evaluateCIDR_tooLarge_eq h] at heval
      cases heval
    · rw [evaluateCIDR_eval_eq h] at heval
      injection heval with ho hn hdist
      exact hdist.symm
  subst hdist
  refine ⟨fun l => rfl, sigCounts_keys_sorted _, sigCounts_keys_nodup _, ?_,
    by decide, by decide, by decide⟩
  intro s c
  rw [mem_sigCounts, count_ownedSigs, ← count_ownedSigs, mem_ownedSigs, count_ownedSigs]

/-- C6 witness: the theorem applied to the two-entry store
`{hooks: 192.30.252.0/22, api: 192.30.252.0/24}` and the range
`192.30.252.0/30`, whose report counts all four addresses under
`"api,hooks"`. -/
theorem sig_aggregation_spec_witness :
    List.Sorted (fun x y : String => x ≤ y) ([("api,hooks", 4)].map Prod.fst) ∧
    (([("api,hooks", 4)] : List (String × Nat)).map Prod.fst).Nodup := by
  have h := sig_aggregation_spec
    [⟨"hooks", ⟨⟨false, 3223256064⟩, 22⟩⟩, ⟨"api", ⟨⟨false, 3223256064⟩, 24⟩⟩]
    ⟨⟨false, 3223256064⟩, 30⟩ 4 0 [("api,hooks", 4)] (by decide)
  exact ⟨h.2.1, h.2.2.1⟩

/-- C7: payload parsing accepts a key as a CIDR source exactly when its value
is a plain list of text strings (other keys are skipped, not fatal), drops
each candidate string the CIDR parser rejects individually, succeeds with
exactly the entries whose label comes from an accepted key and whose block
parses, and fails (with the empty-dataset error) if and only if no entry
survives. -/
theorem parseMetaJSON_spec (parse : String → Option Pfx) (render : Pfx → String)
    (fields : List (String × JValue)) :
    (∀ (v : JValue) (ss : List String),
      extractStringSlice v = some ss ↔ v = JValue.arr (ss.map JValue.str)) ∧
    (parseMetaJSON parse render fields = .error "no CIDR entries found in meta response" ↔
      rawEntries parse fields = []) ∧
    ((∃ es, parseMetaJSON parse render fields = .ok es) ↔ rawEntries parse fields ≠ []) ∧
    (∀ es, parseMetaJSON parse render fields = .ok es →
      ∀ e, e ∈ es ↔ ∃ lv ∈ fields, e.label = lv.1 ∧
        ∃ cs, extractStringSlice lv.2 = some cs ∧ ∃ c ∈ cs, parse c = some e.pfx) := by
  refine ⟨fun v ss => extractStringSlice_eq_some, parseMetaJSON_error_iff, ?_, ?_⟩
  · constructor
    · rintro ⟨es, hes⟩
      exact (parseMetaJSON_ok_iff.mp hes).1
    · intro hne
      exact ⟨sortEntries render (rawEntries parse fields),
        parseMetaJSON_ok_iff.mpr ⟨hne, rfl⟩⟩
  · intro es hes e
    obtain ⟨-, rfl⟩ := parseMetaJSON_ok_iff.mp hes
    rw [(sortEntries_perm render _).mem_iff, mem_rawEntries]

/-- C7 witness: on a heterogeneous payload the boolean- and object-valued keys
are ignored, the unparseable string is dropped, and the single surviving
entry is returned. -/
theorem parseMetaJSON_spec_witness :
    parseMetaJSON
      (fun s => if s = "10.0.0.0/8" then some ⟨⟨false, 167772160⟩, 8⟩ else none)
      (fun _ => "")
      [("hooks", JValue.arr [JValue.str "10.0.0.0/8", JValue.str "garbage"]),
       ("verifiable", JValue.bool true),
       ("fingerprints", JValue.obj [])] =
      .ok [⟨"hooks", ⟨⟨false, 167772160⟩, 8⟩⟩] ∧
    parseMetaJSON
      (fun s => if s = "10.0.0.0/8" then some ⟨⟨false, 167772160⟩, 8⟩ else none)
      (fun _ => "")
      [("verifiable", JValue.bool true)] =
      .error "no CIDR entries found in meta response" := by
  constructor
  · rfl
  · exact (parseMetaJSON_spec
      (fun s => if s = "10.0.0.0/8" then some ⟨⟨false, 167772160⟩, 8⟩ else none)
      (fun _ => "") [("verifiable", JValue.bool true)]).2.1.mpr rfl

/-- C8: on a transport failure or an unexpected status code, `fetch` returns
the parsed cache when the cache loads, and propagates a failure when it does
not; and after a successful fetch has saved the payload, a transport failure
on the next fetch against the same cache returns the previously cached
store. -/
theorem fetch_fallback_spec (parse : String → Option Pfx) (render : Pfx → String)
    (store : Option CacheState) :
    (∀ entries, cacheLoad parse render store = .ok entries →
      fetch parse render .transportError store = .ok (entries, store) ∧
      ∀ code, fetch parse render (.response (.otherStatus code)) store =
        .ok (entries, store)) ∧
    (∀ err, cacheLoad parse render store = .error err →
      fetch parse render .transportError store = .error "fetch github meta" ∧
      ∀ code, fetch parse render (.response (.otherStatus code)) store =
        .error ("unexpected status " ++ toString code ++ " from meta endpoint")) ∧
    (∀ body etag entries c, parseMetaJSON parse render body = .ok entries →
      fetch parse render (.response (.ok body etag)) (some c) =
        .ok (entries, cacheSave (some c) body etag) ∧
      fetch parse render .transportError (cacheSave (some c) body etag) =
        .ok (entries, cacheSave (some c) body etag)) := by
  refine ⟨?_, ?_, ?_⟩
  · intro entries h
    exact ⟨by simp [fetch, h], fun code => by simp [fetch, h]⟩
  · intro err h
    exact ⟨by simp [fetch, h], fun code => by simp [fetch, h]⟩
  · intro body etag entries c hparse
    have hsave : cacheSave (some c) body etag =
        some { payload := some body
               etag := match etag with | some e => some e | none => c.etag } := rfl
    have hload : cacheLoad parse render (cacheSave (some c) body etag) =
        parseMetaJSON parse render body := by rw [hsave]; rfl
    constructor
    · simp [fetch, hparse]
    · simp [fetch, hload, hparse]

/-- C8 witness: a concrete successful fetch into an empty cache followed by a
transport failure against the resulting cache returns the cached entries. -/
theorem fetch_fallback_spec_witness :
    fetch (fun s => if s = "10.0.0.0/8" then some ⟨⟨false, 167772160⟩, 8⟩ else none)
      (fun _ => "") (.response (.ok [("hooks", JValue.arr [JValue.str "10.0.0.0/8"])] none))
      (some ⟨none, none⟩) =
      .ok ([⟨"hooks", ⟨⟨false, 167772160⟩, 8⟩⟩],
        cacheSave (some ⟨none, none⟩) [("hooks", JValue.arr [JValue.str "10.0.0.0/8"])] none) ∧
    fetch (fun s => if s = "10.0.0.0/8" then some ⟨⟨false, 167772160⟩, 8⟩ else none)
      (fun _ => "") .transportError
      (cacheSave (some ⟨none, none⟩) [("hooks", JValue.arr [JValue.str "10.0.0.0/8"])] none) =
      .ok ([⟨"hooks", ⟨⟨false, 167772160⟩, 8⟩⟩],
        cacheSave (some ⟨none, none⟩) [("hooks", JValue.arr [JValue.str "10.0.0.0/8"])] none) :=
  (fetch_fallback_spec
    (fun s => if s = "10.0.0.0/8" then some ⟨⟨false, 167772160⟩, 8⟩ else none)
    (fun _ => "") (some ⟨none, none⟩)).2.2
    [("hooks", JValue.arr [JValue.str "10.0.0.0/8"])] none
    [⟨"hooks", ⟨⟨false, 167772160⟩, 8⟩⟩] ⟨none, none⟩ rfl

/-- C9: input classification first tries the address parser; only on its
failure does it try the CIDR parser; when both fail it reports the invalid
input with the parse error text attached (the error produced by the parser on
the CIDR attempt), as an ordinary result of the total function — with no
partial interpretation. -/
theorem evaluateInput_spec (parseAddr : String → Except String Addr)
    (parsePfx : String → Except String Pfx) (m : MetaData) (raw : String) :
    (∀ a, parseAddr raw = .ok a →
      evaluateInput parseAddr parsePfx m raw = .addrReport (Lookup (some m) (some a))) ∧
    (∀ ea p, parseAddr raw = .error ea → parsePfx raw = .ok p →
      evaluateInput parseAddr parsePfx m raw = .cidrReport (evaluateCIDR m p)) ∧
    (∀ ea ep, parseAddr raw = .error ea → parsePfx raw = .error ep →
      evaluateInput parseAddr parsePfx m raw = .invalid ep) := by
  refine ⟨?_, ?_, ?_⟩
  · intro a h
    simp [evaluateInput, h]
  · intro ea p h1 h2
    simp [evaluateInput, h1, h2]
  · intro ea ep h1 h2
    simp [evaluateInput, h1, h2]

/-- C9 witness: with parsers that both reject the input, the classification
reports the CIDR parser's error text. -/
theorem evaluateInput_spec_witness :
    evaluateInput (fun _ => .error "unable to parse IP")
      (fun _ => .error "missing slash") [] "nonsense" = .invalid "missing slash" :=
  (evaluateInput_spec (fun _ => .error "unable to parse IP")
    (fun _ => .error "missing slash") [] "nonsense").2.2
    "unable to parse IP" "missing slash" rfl rfl

end CidrCalc
